import Mathlib

/-!
# media-swapper: the concurrent conversion pipeline of `cmd/main.go`

A shallow embedding of `cmd/main.go`.  The sequential parts (`main` up to the
point where the goroutines are started, the body of the worker loop, the line
formats of `results`) are pure functions.  The goroutines `main`, `queue`,
`pool`, `worker` and `results`, the two unbuffered channels `in` and `out`,
the `done` channel and the `sync.WaitGroup` are a labelled transition system:
`step` performs one atomic step of one goroutine, a schedule is a list of
actions, and `exec` runs a schedule.  A property of "every interleaving" is a
property of every schedule.

The packages `pkg/fs` and `pkg/swap` are collaborators of `main.go`; what
`main.go` calls in them is a field of `Collab`, and every theorem holds for
every value of it.
-/

set_option linter.unusedTactic false
set_option linter.unreachableTactic false
set_option linter.unnecessarySeqFocus false

namespace MediaSwapper

/-! ## Data model -/

/-- A Go `error`, identified by the text its `Error()` method returns. -/
structure GoError where
  msg : String
deriving DecidableEq, Repr

/-- The `swap.Cmd` a job carries: the field `Input` that `results` prints, and
the command line of the external tool. -/
structure Cmd where
  Input : String
  Path : String
  Args : List String
deriving DecidableEq, Repr

/-- The struct `result` of `main.go`: `err = none` is Go's `nil`. -/
structure result where
  cmd : Cmd
  err : Option GoError
deriving DecidableEq, Repr

/-- What one call of `cmd.Run()` does, seen from the worker: the error it
returns (`none` is `nil`) and what the process wrote to the two buffers. -/
structure RunOutcome where
  err : Option GoError
  cmdout : String
  cmderr : String
deriving DecidableEq, Repr

/-- The functions of `pkg/fs` and `pkg/swap` that `main.go` calls. -/
structure Collab where
  GetSwappableFiles : String → List String × Option GoError
  IsSwappableVideo : String → Bool
  IsSwappableAudio : String → Bool
  Mp4Command : String → String → Cmd
  Mp3Command : String → String → Cmd

/-! ## Strings -/

/-- Whether the character list starts with `sub`. -/
def startsWith : List Char → List Char → Bool
  | _, [] => true
  | [], _ :: _ => false
  | c :: cs, p :: ps => c == p && startsWith cs ps

/-- Whether `sub` occurs in the character list at some position. -/
def containsAt : List Char → List Char → Bool
  | [], sub => startsWith [] sub
  | c :: cs, sub => startsWith (c :: cs) sub || containsAt cs sub

/-- Go's `strings.Contains(s, substr)`: whether `substr` occurs in `s`.  The
search is over characters; for the ASCII text searched for here it finds the
same occurrences as Go's search over bytes. -/
def Contains (s substr : String) : Bool :=
  containsAt s.data substr.data

/-- The text ffmpeg prints when the destination exists (`main.go`, line 99). -/
def overwritePrompt : String := "already exists. Overwrite ? [y/N]"

/-- The value of `fmt.Errorf(text)` for a format without verbs. -/
def Errorf (text : String) : GoError := ⟨text⟩

/-- How `fmt` renders an `error` under the verb `%s`; a nil error prints as
`%!s(<nil>)`. -/
def fmtError : Option GoError → String
  | some e => e.msg
  | none => "%!s(<nil>)"

/-! ## The worker's loop body and the line formats -/

/-- Lines 92-107 of `main.go`: the result a worker builds from a command and
the outcome of running it. -/
def workerBody (cmd : Cmd) (o : RunOutcome) : result :=
  let reserr : Option GoError :=
    match o.err with
    | some err =>
      if Contains o.cmderr overwritePrompt then some (Errorf "mp4 file already exists")
      else some err
    | none => none
  { cmd := cmd, err := reserr }

/-- Lines 115-119 of `main.go`: what `results` prints for one record. -/
def resultLine (r : result) : String :=
  match r.err with
  | some e => " - Failed: " ++ r.cmd.Input ++ ": " ++ e.msg ++ "\n"
  | none => " - Swapped: " ++ r.cmd.Input ++ "\n"

/-- Line 54 of `main.go`: the header, `fmt.Printf("Swapping %d videos: \n", n)`. -/
def headerLine (n : Nat) : String :=
  "Swapping " ++ toString n ++ " videos: \n"

/-- Lines 49-52 of `main.go`: the worker count for `n` discovered files. -/
def workerCount (n : Nat) : Nat :=
  let workers := n / 2
  if workers = 0 then 5 else workers

/-! ## The pipeline as a transition system -/

/-- Program counter of `main` from line 61 on. -/
inductive MainPC where
  | goResults
  | goPool
  | goQueue
  | recvDone
  | returned
deriving DecidableEq, Repr

/-- Program counter of `queue`: not started, in the loop with the files still
to visit, or returned (after `close(in)`). -/
inductive QueuePC where
  | idle
  | loop (rest : List String)
  | returned
deriving DecidableEq, Repr

/-- Program counter of `pool`: not started, at the loop test with counter `i`,
between `wg.Add(1)` and `go worker` of iteration `i`, at `close(out)`, or
returned.  `loop i` with `i` not below the worker count is `wg.Wait()`. -/
inductive PoolPC where
  | idle
  | loop (i : Nat)
  | spawn (i : Nat)
  | close
  | returned
deriving DecidableEq, Repr

/-- Program counter of one worker: at `range in`, holding a command before
`cmd.Run()`, holding a result before `out <- ...`, at `wg.Done()`, or
returned. -/
inductive WorkerPC where
  | recv
  | run (cmd : Cmd)
  | send (r : result)
  | done
  | exited
deriving DecidableEq, Repr

/-- Program counter of `results`: not started, at `range out`, holding a record
before printing it, at `done <- struct{}{}`, or returned. -/
inductive ResultsPC where
  | idle
  | recv
  | print (r : result)
  | sendDone
  | returned
deriving DecidableEq, Repr

/-- What the pipeline is started with. -/
structure Config where
  fs : Collab
  bin : String
  files : List String
  workers : Nat

/-- The state of the process once `main` has passed its checks.  `sent` and
`delivered` log the values that went through `in` and `out`; `inCloses`,
`outCloses` and `doneSends` count the closes and the sends on `done`;
`exit` is the exit status once the process is over (0 when `main` returns,
2 for a runtime panic). -/
structure State where
  main : MainPC
  queue : QueuePC
  pool : PoolPC
  workers : List WorkerPC
  results : ResultsPC
  wg : Nat
  inCloses : Nat
  outCloses : Nat
  doneSends : Nat
  sent : List Cmd
  delivered : List result
  stdout : List String
  exit : Option Nat
deriving DecidableEq, Repr

/-- One atomic step of one goroutine.  A transfer over an unbuffered channel
is one step, named after the worker for `in` and `out` and after `main` for
`done`; `run w o` is worker `w` finishing `cmd.Run()` with outcome `o`. -/
inductive Action where
  | main
  | queue
  | pool
  | worker (w : Nat)
  | run (w : Nat) (o : RunOutcome)
  | results
deriving DecidableEq, Repr

/-- The state right after line 59: header printed, channels made, no goroutine
started. -/
def init (c : Config) : State :=
  { main := .goResults, queue := .idle, pool := .idle, workers := [], results := .idle,
    wg := 0, inCloses := 0, outCloses := 0, doneSends := 0, sent := [], delivered := [],
    stdout := [headerLine c.files.length], exit := none }

/-- A runtime panic: the process dies with status 2. -/
def crash (s : State) : State :=
  { s with exit := some 2 }

/-- The command `queue` sends for a file, if any (lines 70-74). -/
def queueCmd (c : Config) (file : String) : Option Cmd :=
  if c.fs.IsSwappableVideo file then some (c.fs.Mp4Command c.bin file)
  else if c.fs.IsSwappableAudio file then some (c.fs.Mp3Command c.bin file)
  else none

/-- The step of `main`: the three `go` statements, then the receive on `done`,
which needs `results` at its send. -/
def stepMain (c : Config) (s : State) : Option State :=
  match s.main with
  | .goResults => some { s with main := .goPool, results := .recv }
  | .goPool => some { s with main := .goQueue, pool := .loop 0 }
  | .goQueue => some { s with main := .recvDone, queue := .loop c.files }
  | .recvDone =>
    match s.results with
    | .sendDone =>
      some { s with main := .returned, results := .returned,
                    doneSends := s.doneSends + 1, exit := some 0 }
    | _ => none
  | .returned => none

/-- The steps `queue` takes alone: skipping a file that is neither video nor
audio, and `close(in)`.  At a file with a command it waits for a worker. -/
def stepQueue (c : Config) (s : State) : Option State :=
  match s.queue with
  | .loop (file :: rest) =>
    match queueCmd c file with
    | some _ => none
    | none => some { s with queue := .loop rest }
  | .loop [] =>
    if s.inCloses = 0 then some { s with queue := .returned, inCloses := s.inCloses + 1 }
    else some (crash s)
  | _ => none

/-- The steps of `pool`: `wg.Add(1)`, `go worker`, `wg.Wait()`, `close(out)`. -/
def stepPool (c : Config) (s : State) : Option State :=
  match s.pool with
  | .loop i =>
    if i < c.workers then some { s with pool := .spawn i, wg := s.wg + 1 }
    else if s.wg = 0 then some { s with pool := .close }
    else none
  | .spawn i => some { s with pool := .loop (i + 1), workers := s.workers ++ [.recv] }
  | .close =>
    if s.outCloses = 0 then some { s with pool := .returned, outCloses := s.outCloses + 1 }
    else some (crash s)
  | _ => none

/-- The steps of worker `w` other than `cmd.Run()`: the receive on `in` (a
transfer from `queue`, or the end of the loop once `in` is closed), the send
on `out` (a transfer to `results`), and `wg.Done()`. -/
def stepWorker (c : Config) (s : State) (w : Nat) : Option State :=
  match s.workers[w]? with
  | some .recv =>
    if s.inCloses ≠ 0 then some { s with workers := s.workers.set w .done }
    else
      match s.queue with
      | .loop (file :: rest) =>
        match queueCmd c file with
        | some cmd =>
          some { s with queue := .loop rest, sent := s.sent ++ [cmd],
                        workers := s.workers.set w (.run cmd) }
        | none => none
      | _ => none
  | some (.send r) =>
    if s.outCloses ≠ 0 then some (crash s)
    else
      match s.results with
      | .recv =>
        some { s with results := .print r, delivered := s.delivered ++ [r],
                      workers := s.workers.set w .recv }
      | _ => none
  | some .done =>
    if s.wg = 0 then some (crash s)
    else some { s with wg := s.wg - 1, workers := s.workers.set w .exited }
  | _ => none

/-- Worker `w` finishes `cmd.Run()` with outcome `o` and builds its result. -/
def stepRun (s : State) (w : Nat) (o : RunOutcome) : Option State :=
  match s.workers[w]? with
  | some (.run cmd) => some { s with workers := s.workers.set w (.send (workerBody cmd o)) }
  | _ => none

/-- The steps `results` takes alone: printing the record it holds, and leaving
the loop once `out` is closed. -/
def stepResults (s : State) : Option State :=
  match s.results with
  | .recv => if s.outCloses ≠ 0 then some { s with results := .sendDone } else none
  | .print r => some { s with results := .recv, stdout := s.stdout ++ [resultLine r] }
  | _ => none

/-- One step of the process; nothing moves once the process is over. -/
def step (c : Config) (s : State) (a : Action) : Option State :=
  if s.exit.isSome then none
  else
    match a with
    | .main => stepMain c s
    | .queue => stepQueue c s
    | .pool => stepPool c s
    | .worker w => stepWorker c s w
    | .run w o => stepRun s w o
    | .results => stepResults s

/-- Running a schedule. -/
def exec (c : Config) : State → List Action → Option State
  | s, [] => some s
  | s, a :: as =>
    match step c s a with
    | some s' => exec c s' as
    | none => none

/-- The commands `queue` sends for a list of files, in order. -/
def queueCmds (c : Config) (files : List String) : List Cmd :=
  files.filterMap (queueCmd c)

/-! ## `main` before the pipeline -/

/-- How `main` ends its checks: a fatal exit (text on standard error, exit
status, nothing else done), or the pipeline started in its first state. -/
inductive Startup where
  | fatal (stderr : String) (status : Nat)
  | started (c : Config) (s : State)

/-- What `main` starts the pipeline with for the discovered `files`. -/
def startConfig (fs : Collab) (bin : String) (files : List String) : Config :=
  { fs := fs, bin := bin, files := files, workers := workerCount files.length }

/-- Lines 33-59 of `main.go`, for the flag values `bin` and `src`. -/
def main (fs : Collab) (bin src : String) : Startup :=
  if bin = "" then .fatal "The -bin flag must be specified\n" 1
  else if src = "" then .fatal "The -src flag must be specified\n" 1
  else
    match fs.GetSwappableFiles src with
    | (files, err) =>
      if err ≠ none ∨ files.length = 0 then
        .fatal ("Could not find mkv/m4a files: " ++ fmtError err ++ "\n") 1
      else
        let c : Config := startConfig fs bin files
        .started c (init c)

/-! ## Bookkeeping used in the proofs -/

/-- Workers that have not returned: 1 for each program counter but `exited`. -/
def WorkerPC.live : WorkerPC → Nat
  | .exited => 0
  | _ => 1

/-- The command a worker holds, run or not, whose result is not yet sent. -/
def WorkerPC.held : WorkerPC → List Cmd
  | .run cmd => [cmd]
  | .send r => [r.cmd]
  | _ => []

/-- Steps a worker can still take without a new command. -/
def WorkerPC.weight : WorkerPC → Nat
  | .recv => 2
  | .run _ => 5
  | .send _ => 4
  | .done => 1
  | .exited => 0

/-- Number of workers that have not returned. -/
def liveCount : List WorkerPC → Nat
  | [] => 0
  | w :: ws => w.live + liveCount ws

/-- The commands held by the workers. -/
def inflight : List WorkerPC → List Cmd
  | [] => []
  | w :: ws => w.held ++ inflight ws

/-- Sum of the workers' weights. -/
def workersWeight : List WorkerPC → Nat
  | [] => 0
  | w :: ws => w.weight + workersWeight ws

/-- The files `queue` has still to visit. -/
def queueRest (c : Config) : QueuePC → List String
  | .idle => c.files
  | .loop rest => rest
  | .returned => []

/-- The number of workers `pool` has started. -/
def poolSpawned (c : Config) : PoolPC → Nat
  | .idle => 0
  | .loop i => i
  | .spawn i => i
  | .close => c.workers
  | .returned => c.workers

/-- The `wg.Add(1)` whose worker is not started yet. -/
def poolPending : PoolPC → Nat
  | .spawn _ => 1
  | _ => 0

/-- The bound on the loop counter of `pool`. -/
def poolBound (c : Config) : PoolPC → Prop
  | .loop i => i ≤ c.workers
  | .spawn i => i < c.workers
  | _ => True

/-- The record `results` has received and not printed yet. -/
def pendingPrint : ResultsPC → List result
  | .print r => [r]
  | _ => []

def MainPC.weight (c : Config) : MainPC → Nat
  | .goResults => 4 * c.files.length + 4 * c.workers + 9
  | .goPool => 4 * c.files.length + 4 * c.workers + 6
  | .goQueue => 4 * c.files.length + 3
  | .recvDone => 1
  | .returned => 0

def QueuePC.weight (c : Config) : QueuePC → Nat
  | .idle => 4 * c.files.length + 1
  | .loop rest => 4 * rest.length + 1
  | .returned => 0

def PoolPC.weight (c : Config) : PoolPC → Nat
  | .idle => 4 * c.workers + 2
  | .loop i => 4 * (c.workers - i) + 2
  | .spawn i => 4 * (c.workers - (i + 1)) + 5
  | .close => 1
  | .returned => 0

def ResultsPC.weight : ResultsPC → Nat
  | .idle => 2
  | .recv => 2
  | .print _ => 3
  | .sendDone => 1
  | .returned => 0

/-- A bound on the number of steps the process can still take. -/
def stepsLeft (c : Config) (s : State) : Nat :=
  s.main.weight c + s.queue.weight c + s.pool.weight c + workersWeight s.workers
    + s.results.weight + (if s.exit = none then 1 else 0)

/-- The invariant of the pipeline. -/
structure Inv (c : Config) (s : State) : Prop where
  exit_eq : s.exit = if s.main = .returned then some 0 else none
  results_idle : s.results = .idle ↔ s.main = .goResults
  results_returned : s.results = .returned ↔ s.main = .returned
  done_sends : s.doneSends = if s.main = .returned then 1 else 0
  pool_idle : s.pool = .idle ↔ (s.main = .goResults ∨ s.main = .goPool)
  queue_idle : s.queue = .idle ↔ (s.main = .goResults ∨ s.main = .goPool ∨ s.main = .goQueue)
  sent_eq : s.sent ++ queueCmds c (queueRest c s.queue) = queueCmds c c.files
  in_closes : s.inCloses = if s.queue = .returned then 1 else 0
  spawned : s.workers.length = poolSpawned c s.pool
  pool_bound : poolBound c s.pool
  wg_eq : s.wg = liveCount s.workers + poolPending s.pool
  pool_waited : (s.pool = .close ∨ s.pool = .returned) → s.wg = 0
  out_closes : s.outCloses = if s.pool = .returned then 1 else 0
  past_loop : ∀ w ∈ s.workers, (w = .done ∨ w = .exited) → s.inCloses = 1
  results_past : (s.results = .sendDone ∨ s.results = .returned) → s.outCloses = 1
  accounted : (s.delivered.map result.cmd ++ inflight s.workers).Perm s.sent
  printed : s.stdout ++ (pendingPrint s.results).map resultLine
    = headerLine c.files.length :: s.delivered.map resultLine

/-! ## A concrete run, used in the examples -/

/-- A collaborator for the examples: a video is a `.mkv` file, audio a `.m4a`
file, and discovery finds one of each. -/
def sampleCollab : Collab :=
  { GetSwappableFiles := fun _ => (["a.mkv", "b.m4a"], none)
    IsSwappableVideo := fun f => startsWith f.data.reverse ".mkv".data.reverse
    IsSwappableAudio := fun f => startsWith f.data.reverse ".m4a".data.reverse
    Mp4Command := fun bin f => { Input := f, Path := bin, Args := ["-i", f, "-codec", "copy"] }
    Mp3Command := fun bin f => { Input := f, Path := bin, Args := ["-i", f, "-f", "mp3"] } }

/-- What `main` starts for `sampleCollab`: two files, one worker. -/
def sampleConfig : Config :=
  startConfig sampleCollab "ffmpeg" ["a.mkv", "b.m4a"]

/-- A run that fails on the overwrite prompt. -/
def existsOutcome : RunOutcome :=
  { err := some ⟨"exit status 1"⟩, cmdout := "",
    cmderr := "File b.mp3 already exists. Overwrite ? [y/N] Not overwriting - exiting" }

/-- A run that fails for another reason. -/
def brokenOutcome : RunOutcome :=
  { err := some ⟨"exit status 1"⟩, cmdout := "", cmderr := "a.mkv: Invalid data found" }

/-- A run that succeeds although the prompt text is on its standard error. -/
def noisyOutcome : RunOutcome :=
  { err := none, cmdout := "", cmderr := "already exists. Overwrite ? [y/N] y" }

/-- A complete schedule of the sample pipeline: the first job succeeds, the
second fails on the overwrite prompt. -/
def sampleSchedule : List Action :=
  [.main, .main, .main, .pool, .pool, .worker 0, .run 0 ⟨none, "", ""⟩, .worker 0, .results,
   .worker 0, .run 0 existsOutcome, .worker 0, .results, .queue, .worker 0, .worker 0,
   .pool, .pool, .results, .main]

/-- The state `sampleSchedule` ends in. -/
def sampleFinal : State :=
  { main := .returned, queue := .returned, pool := .returned, workers := [.exited],
    results := .returned, wg := 0, inCloses := 1, outCloses := 1, doneSends := 1,
    sent := [sampleCollab.Mp4Command "ffmpeg" "a.mkv", sampleCollab.Mp3Command "ffmpeg" "b.m4a"],
    delivered := [⟨sampleCollab.Mp4Command "ffmpeg" "a.mkv", none⟩,
      ⟨sampleCollab.Mp3Command "ffmpeg" "b.m4a", some ⟨"mp4 file already exists"⟩⟩],
    stdout := ["Swapping 2 videos: \n", " - Swapped: a.mkv\n",
      " - Failed: b.m4a: mp4 file already exists\n"],
    exit := some 0 }

/-- The sample pipeline once its worker holds the first command and `results`
waits on `out`. -/
def sampleHolding : State :=
  { main := .recvDone, queue := .loop ["b.m4a"], pool := .loop 1,
    workers := [.run (sampleCollab.Mp4Command "ffmpeg" "a.mkv")],
    results := .recv, wg := 1, inCloses := 0, outCloses := 0, doneSends := 0,
    sent := [sampleCollab.Mp4Command "ffmpeg" "a.mkv"], delivered := [],
    stdout := ["Swapping 2 videos: \n"], exit := none }

/-- A pipeline whose file list holds a file that is neither video nor audio. -/
def skipConfig : Config :=
  startConfig sampleCollab "ffmpeg" ["notes.txt"]

/-- A schedule in which `queue` runs to its end on `skipConfig`. -/
def skipSchedule : List Action :=
  [.main, .main, .main, .queue, .queue]

/-- The state `skipSchedule` ends in: `queue` has returned and sent nothing. -/
def skipFinal : State :=
  { main := .recvDone, queue := .returned, pool := .loop 0, workers := [], results := .recv,
    wg := 0, inCloses := 1, outCloses := 0, doneSends := 0, sent := [], delivered := [],
    stdout := ["Swapping 1 videos: \n"], exit := none }

/-- A collaborator whose discovery returns a file that is neither video nor
audio. -/
def strayCollab : Collab :=
  { sampleCollab with GetSwappableFiles := fun _ => (["notes.txt"], none) }

/-- What `main` starts for `strayCollab`: one file, five workers. -/
def strayConfig : Config :=
  startConfig strayCollab "ffmpeg" ["notes.txt"]

/-- A complete schedule of the pipeline of `strayConfig`: `queue` skips the
file and closes `in`, the five workers are started and return, `pool` closes
`out`, `results` signals `done` and `main` returns. -/
def straySchedule : List Action :=
  [.main, .main, .main, .queue, .queue,
   .pool, .pool, .pool, .pool, .pool, .pool, .pool, .pool, .pool, .pool,
   .worker 0, .worker 1, .worker 2, .worker 3, .worker 4,
   .worker 0, .worker 1, .worker 2, .worker 3, .worker 4,
   .pool, .pool, .results, .main]

/-- The state `straySchedule` ends in: exit status 0, the header announcing one
file, and no result line. -/
def strayFinal : State :=
  { main := .returned, queue := .returned, pool := .returned,
    workers := [.exited, .exited, .exited, .exited, .exited], results := .returned,
    wg := 0, inCloses := 1, outCloses := 1, doneSends := 1, sent := [], delivered := [],
    stdout := ["Swapping 1 videos: \n"], exit := some 0 }

/-! ## Strings: what `Contains` decides -/

theorem startsWith_iff (s sub : List Char) :
    startsWith s sub = true ↔ ∃ post, s = sub ++ post := by
  induction sub generalizing s with
  | nil => simp [startsWith]
  | cons p ps ih =>
    cases s with
    | nil => simp [startsWith]
    | cons c cs =>
      simp only [startsWith, Bool.and_eq_true, beq_iff_eq, ih, List.cons_append, List.cons.injEq]
      constructor
      · rintro ⟨rfl, post, rfl⟩
        exact ⟨post, rfl, rfl⟩
      · rintro ⟨post, rfl, rfl⟩
        exact ⟨rfl, post, rfl⟩

theorem containsAt_iff (s sub : List Char) :
    containsAt s sub = true ↔ ∃ pre post, s = pre ++ sub ++ post := by
  induction s with
  | nil =>
    simp only [containsAt, startsWith_iff]
    constructor
    · rintro ⟨post, h⟩
      exact ⟨[], post, by simpa using h⟩
    · rintro ⟨pre, post, h⟩
      have h1 : pre = [] ∧ sub = [] ∧ post = [] := by
        simpa [List.append_eq_nil, and_assoc] using h.symm
      exact ⟨[], by simp [h1.2.1]⟩
  | cons c cs ih =>
    simp only [containsAt, Bool.or_eq_true, startsWith_iff, ih]
    constructor
    · rintro (⟨post, h⟩ | ⟨pre, post, h⟩)
      · exact ⟨[], post, by simpa using h⟩
      · exact ⟨c :: pre, post, by simp [h]⟩
    · rintro ⟨pre, post, h⟩
      cases pre with
      | nil => exact Or.inl ⟨post, by simpa using h⟩
      | cons p pre =>
        simp only [List.cons_append, List.cons.injEq] at h
        exact Or.inr ⟨pre, post, h.2⟩

theorem Contains_iff (s substr : String) :
    Contains s substr = true ↔ ∃ pre post, s.data = pre ++ substr.data ++ post :=
  containsAt_iff s.data substr.data

/-! ## Lists of workers -/

theorem workers_split {ws : List WorkerPC} {w : Nat} {old : WorkerPC}
    (h : ws[w]? = some old) :
    ∃ l r, ws = l ++ old :: r ∧ ∀ x, ws.set w x = l ++ x :: r := by
  induction ws generalizing w with
  | nil => simp at h
  | cons a ws ih =>
    cases w with
    | zero =>
      simp only [List.getElem?_cons_zero, Option.some.injEq] at h
      subst h
      exact ⟨[], ws, rfl, fun x => rfl⟩
    | succ n =>
      simp only [List.getElem?_cons_succ] at h
      obtain ⟨l, r, h1, h2⟩ := ih h
      refine ⟨a :: l, r, by simp [h1], fun x => ?_⟩
      simp [List.set, h2 x]

theorem liveCount_append (l r : List WorkerPC) :
    liveCount (l ++ r) = liveCount l + liveCount r := by
  induction l with
  | nil => simp [liveCount]
  | cons a l ih => simp [liveCount, ih, Nat.add_assoc]

theorem inflight_append (l r : List WorkerPC) :
    inflight (l ++ r) = inflight l ++ inflight r := by
  induction l with
  | nil => simp [inflight]
  | cons a l ih => simp [inflight, ih]

theorem workersWeight_append (l r : List WorkerPC) :
    workersWeight (l ++ r) = workersWeight l + workersWeight r := by
  induction l with
  | nil => simp [workersWeight]
  | cons a l ih => simp [workersWeight, ih, Nat.add_assoc]

theorem liveCount_eq_zero {ws : List WorkerPC} (h : liveCount ws = 0) :
    ∀ w ∈ ws, w = WorkerPC.exited := by
  induction ws with
  | nil => simp
  | cons a ws ih =>
    simp only [liveCount, Nat.add_eq_zero] at h
    intro w hw
    rcases List.mem_cons.1 hw with rfl | hw
    · cases w <;> simp [WorkerPC.live] at h ⊢
    · exact ih h.2 w hw

theorem inflight_eq_nil {ws : List WorkerPC} (h : ∀ w ∈ ws, w = WorkerPC.exited) :
    inflight ws = [] := by
  induction ws with
  | nil => rfl
  | cons a ws ih =>
    have ha : a = .exited := h a (List.mem_cons_self _ _)
    subst ha
    simp [inflight, WorkerPC.held, ih (fun w hw => h w (List.mem_cons_of_mem _ hw))]

theorem exists_live {ws : List WorkerPC} (h : liveCount ws ≠ 0) :
    ∃ (w : Nat) (pc : WorkerPC), ws[w]? = some pc ∧ pc ≠ WorkerPC.exited := by
  induction ws with
  | nil => simp [liveCount] at h
  | cons a ws ih =>
    by_cases ha : a = .exited
    · subst ha
      simp only [liveCount, WorkerPC.live, Nat.zero_add] at h
      obtain ⟨w, pc, h1, h2⟩ := ih h
      have h3 : (WorkerPC.exited :: ws)[w + 1]? = some pc := by
        rw [List.getElem?_cons_succ]
        exact h1
      exact ⟨w + 1, pc, h3, h2⟩
    · have h0 : (a :: ws)[0]? = some a := List.getElem?_cons_zero
      exact ⟨0, a, h0, ha⟩

theorem queueCmds_cons (c : Config) (file : String) (rest : List String) :
    queueCmds c (file :: rest) = (queueCmd c file).toList ++ queueCmds c rest := by
  unfold queueCmds
  cases h : queueCmd c file <;> simp [List.filterMap_cons, h]

/-! ## The invariant holds in every reachable state -/

theorem init_inv (c : Config) : Inv c (init c) := by
  constructor <;>
    simp [init, queueRest, poolSpawned, poolBound, liveCount, poolPending, inflight,
      pendingPrint]

theorem stepMain_inv {c : Config} {s s' : State} (h : Inv c s)
    (hs : stepMain c s = some s') : Inv c s' := by
  obtain ⟨main, queue, pool, workers, results, wg, ic, oc, ds, sent, delivered, stdout,
    exit⟩ := s
  obtain ⟨h1, h2, h3, h4, h5, h6, h7, h8, h9, h10, h11, h12, h13, h14, h15, h16, h17⟩ := h
  cases main <;> simp [stepMain] at hs
  all_goals (try (cases results <;> simp at hs))
  all_goals
    subst hs
    constructor <;>
      simp_all [queueRest, poolSpawned, poolBound, poolPending, pendingPrint] <;>
      assumption

theorem stepQueue_inv {c : Config} {s s' : State} (h : Inv c s)
    (hs : stepQueue c s = some s') : Inv c s' := by
  obtain ⟨main, queue, pool, workers, results, wg, ic, oc, ds, sent, delivered, stdout,
    exit⟩ := s
  obtain ⟨h1, h2, h3, h4, h5, h6, h7, h8, h9, h10, h11, h12, h13, h14, h15, h16, h17⟩ := h
  unfold stepQueue at hs
  split at hs
  · rename_i file rest hq
    simp only at hq
    subst hq
    split at hs
    · simp at hs
    · rename_i hcmd
      simp only [Option.some.injEq] at hs
      subst hs
      simp only [queueRest, queueCmds_cons, hcmd, Option.toList, List.nil_append] at h7
      constructor <;> simp_all [queueRest] <;> assumption
  · rename_i hq
    simp only at hq
    subst hq
    simp only [reduceCtorEq, if_false] at h8
    subst h8
    simp only [if_true, Option.some.injEq] at hs
    subst hs
    constructor <;> simp_all [queueRest, queueCmds] <;> assumption
  · simp at hs

theorem stepPool_inv {c : Config} {s s' : State} (h : Inv c s)
    (hs : stepPool c s = some s') : Inv c s' := by
  obtain ⟨main, queue, pool, workers, results, wg, ic, oc, ds, sent, delivered, stdout,
    exit⟩ := s
  obtain ⟨h1, h2, h3, h4, h5, h6, h7, h8, h9, h10, h11, h12, h13, h14, h15, h16, h17⟩ := h
  unfold stepPool at hs
  split at hs
  · rename_i i hp
    simp only at hp
    subst hp
    split at hs
    · rename_i hi
      simp only [Option.some.injEq] at hs
      subst hs
      constructor <;>
        simp_all [poolSpawned, poolBound, poolPending] <;> first | assumption | omega
    · rename_i hi
      split at hs
      · rename_i hwg
        simp only [Option.some.injEq] at hs
        subst hs
        simp only [poolBound] at h10
        have hiw : i = c.workers := by omega
        constructor <;>
          simp_all [poolSpawned, poolBound, poolPending] <;> first | assumption | omega
      · simp at hs
  · rename_i i hp
    simp only at hp
    subst hp
    simp only [Option.some.injEq] at hs
    subst hs
    constructor
    all_goals
      try (simp_all [poolSpawned, poolBound, poolPending, liveCount_append, inflight_append,
        liveCount, inflight, WorkerPC.live, WorkerPC.held] <;> first | assumption | omega)
    case past_loop =>
      intro w hw hw2
      simp only [List.mem_append, List.mem_singleton] at hw
      rcases hw with hw | rfl
      · exact h14 w hw hw2
      · simp at hw2
  · rename_i hp
    simp only at hp
    subst hp
    simp only [reduceCtorEq, if_false] at h13
    subst h13
    simp only [if_true, Option.some.injEq] at hs
    subst hs
    constructor <;>
      simp_all [poolSpawned, poolBound, poolPending] <;> first | assumption | omega
  · simp at hs

theorem perm_take_command {D L R S : List Cmd} (x : Cmd) (h : (D ++ (L ++ R)).Perm S) :
    (D ++ (L ++ x :: R)).Perm (S ++ [x]) := by
  have h1 : (D ++ (L ++ x :: R)).Perm (x :: (D ++ (L ++ R))) := by
    rw [← List.append_assoc, ← List.append_assoc]
    exact List.perm_middle
  exact (h1.trans (h.cons x)).trans (List.perm_append_singleton x S).symm

theorem perm_publish {D L R S : List Cmd} (x : Cmd) (h : (D ++ (L ++ x :: R)).Perm S) :
    ((D ++ [x]) ++ (L ++ R)).Perm S := by
  have h1 : (D ++ (L ++ x :: R)).Perm (x :: (D ++ (L ++ R))) := by
    rw [← List.append_assoc, ← List.append_assoc]
    exact List.perm_middle
  have h2 : ((D ++ [x]) ++ (L ++ R)).Perm (x :: (D ++ (L ++ R))) := by
    rw [List.append_assoc]
    exact List.perm_middle
  exact (h2.trans h1.symm).trans h

theorem stepWorker_inv {c : Config} {s s' : State} {w : Nat} (h : Inv c s)
    (hs : stepWorker c s w = some s') : Inv c s' := by
  obtain ⟨main, queue, pool, workers, results, wg, ic, oc, ds, sent, delivered, stdout,
    exit⟩ := s
  obtain ⟨h1, h2, h3, h4, h5, h6, h7, h8, h9, h10, h11, h12, h13, h14, h15, h16, h17⟩ := h
  simp only at h1 h2 h3 h4 h5 h6 h7 h8 h9 h10 h11 h12 h13 h14 h15 h16 h17
  unfold stepWorker at hs
  simp only at hs
  split at hs
  · -- at `range in`
    rename_i hw
    obtain ⟨l, r, hl, hset⟩ := workers_split hw
    subst hl
    simp only [hset] at hs
    clear hset hw
    split at hs
    · rename_i hic
      simp only [Option.some.injEq] at hs
      subst hs
      have hq : queue = QueuePC.returned := by
        by_contra hq
        simp only [hq, if_false] at h8
        exact hic h8
      subst hq
      clear hic
      simp only [if_true] at h8
      constructor
      all_goals
        try (simp_all [liveCount_append, inflight_append, liveCount, inflight,
          WorkerPC.live, WorkerPC.held] <;> first | assumption | omega)
    · rename_i hic
      split at hs
      · rename_i file rest
        split at hs
        · rename_i cmd hcmd
          simp only [Option.some.injEq] at hs
          subst hs
          simp only [queueRest, queueCmds_cons, hcmd, Option.toList] at h7
          simp only [inflight_append, inflight, WorkerPC.held, List.nil_append] at h16
          constructor
          all_goals
            try (simp_all [liveCount_append, inflight_append, liveCount, inflight,
              WorkerPC.live, WorkerPC.held, queueRest] <;> first | assumption | omega)
          case accounted =>
            simp only [inflight_append, inflight, WorkerPC.held, List.singleton_append]
            exact perm_take_command cmd h16
          case past_loop =>
            intro x hx hx2
            simp only [List.mem_append, List.mem_cons] at hx
            rcases hx with hx | rfl | hx
            · exact h14 x (by simp [hx]) hx2
            · simp at hx2
            · exact h14 x (by simp [hx]) hx2
        · simp at hs
      · simp at hs
  · -- at `out <- result`
    rename_i res hw
    obtain ⟨l, r, hl, hset⟩ := workers_split hw
    subst hl
    simp only [hset] at hs
    clear hset hw
    have hlive : liveCount (l ++ WorkerPC.send res :: r) ≠ 0 := by
      simp [liveCount_append, liveCount, WorkerPC.live]
    have hoc : oc = 0 := by
      by_contra hne
      have hp : pool = PoolPC.returned := by
        by_contra hp
        simp [hp] at h13
        exact hne h13
      have := h12 (Or.inr hp)
      omega
    simp only [hoc, ne_eq, not_true_eq_false, if_false] at hs
    split at hs
    · rename_i hres
      simp only [Option.some.injEq] at hs
      subst hs
      simp only [inflight_append, inflight, WorkerPC.held, List.singleton_append] at h16
      constructor
      all_goals
        try (simp_all [liveCount_append, inflight_append, liveCount, inflight,
          WorkerPC.live, WorkerPC.held, pendingPrint] <;> first | assumption | omega)
      case accounted =>
        simp only [inflight_append, inflight, WorkerPC.held, List.nil_append, List.map_append,
          List.map_cons, List.map_nil]
        exact perm_publish res.cmd h16
      case past_loop =>
        intro x hx hx2
        simp only [List.mem_append, List.mem_cons] at hx
        rcases hx with hx | rfl | hx
        · exact h14 x (by simp [hx]) hx2
        · simp at hx2
        · exact h14 x (by simp [hx]) hx2
    · simp at hs
  · -- at `wg.Done()`
    rename_i hw
    obtain ⟨l, r, hl, hset⟩ := workers_split hw
    subst hl
    simp only [hset] at hs
    clear hset hw
    have hlive : liveCount (l ++ WorkerPC.done :: r) ≠ 0 := by
      simp [liveCount_append, liveCount, WorkerPC.live]
    have hwg : wg ≠ 0 := by omega
    simp only [hwg, if_false, Option.some.injEq] at hs
    subst hs
    have hic1 : ic = 1 := h14 WorkerPC.done (by simp) (Or.inl rfl)
    have hq : queue = QueuePC.returned := by
      by_contra hq
      simp only [hq, if_false] at h8
      omega
    subst hq
    clear hic1
    simp only [if_true] at h8
    constructor
    all_goals
      try (simp_all [liveCount_append, inflight_append, liveCount, inflight,
        WorkerPC.live, WorkerPC.held] <;> first | assumption | omega)
  · simp at hs

theorem stepRun_inv {c : Config} {s s' : State} {w : Nat} {o : RunOutcome} (h : Inv c s)
    (hs : stepRun s w o = some s') : Inv c s' := by
  obtain ⟨main, queue, pool, workers, results, wg, ic, oc, ds, sent, delivered, stdout,
    exit⟩ := s
  obtain ⟨h1, h2, h3, h4, h5, h6, h7, h8, h9, h10, h11, h12, h13, h14, h15, h16, h17⟩ := h
  simp only at h1 h2 h3 h4 h5 h6 h7 h8 h9 h10 h11 h12 h13 h14 h15 h16 h17
  unfold stepRun at hs
  simp only at hs
  split at hs
  · rename_i cmd hw
    obtain ⟨l, r, hl, hset⟩ := workers_split hw
    subst hl
    simp only [hset, Option.some.injEq] at hs
    clear hset hw
    subst hs
    have hcmd : (workerBody cmd o).cmd = cmd := rfl
    constructor
    all_goals
      try (simp_all [liveCount_append, inflight_append, liveCount, inflight,
        WorkerPC.live, WorkerPC.held] <;> first | assumption | omega)
    case past_loop =>
      intro x hx hx2
      simp only [List.mem_append, List.mem_cons] at hx
      rcases hx with hx | rfl | hx
      · exact h14 x (by simp [hx]) hx2
      · simp at hx2
      · exact h14 x (by simp [hx]) hx2
  · simp at hs

theorem stepResults_inv {c : Config} {s s' : State} (h : Inv c s)
    (hs : stepResults s = some s') : Inv c s' := by
  obtain ⟨main, queue, pool, workers, results, wg, ic, oc, ds, sent, delivered, stdout,
    exit⟩ := s
  obtain ⟨h1, h2, h3, h4, h5, h6, h7, h8, h9, h10, h11, h12, h13, h14, h15, h16, h17⟩ := h
  simp only at h1 h2 h3 h4 h5 h6 h7 h8 h9 h10 h11 h12 h13 h14 h15 h16 h17
  unfold stepResults at hs
  simp only at hs
  split at hs
  · split at hs
    · rename_i hoc
      simp only [Option.some.injEq] at hs
      subst hs
      have hp : pool = PoolPC.returned := by
        by_contra hp
        simp only [hp, if_false] at h13
        exact hoc h13
      subst hp
      clear hoc
      simp only [if_true] at h13
      constructor
      all_goals
        try (first | exact h14 | (simp_all [pendingPrint] <;> first | assumption | omega))
    · simp at hs
  · simp only [Option.some.injEq] at hs
    subst hs
    constructor
    all_goals
      try (simp_all [pendingPrint] <;> first | assumption | omega)
  · simp at hs

theorem step_inv {c : Config} {s s' : State} {a : Action} (h : Inv c s)
    (hs : step c s a = some s') : Inv c s' := by
  unfold step at hs
  split at hs
  · simp at hs
  · cases a with
    | main => exact stepMain_inv h hs
    | queue => exact stepQueue_inv h hs
    | pool => exact stepPool_inv h hs
    | worker w => exact stepWorker_inv h hs
    | run w o => exact stepRun_inv h hs
    | results => exact stepResults_inv h hs

theorem exec_inv {c : Config} {s s' : State} {sched : List Action} (h : Inv c s)
    (hs : exec c s sched = some s') : Inv c s' := by
  induction sched generalizing s with
  | nil =>
    simp only [exec, Option.some.injEq] at hs
    exact hs ▸ h
  | cons a as ih =>
    simp only [exec] at hs
    split at hs
    · rename_i s1 h1
      exact ih (step_inv h h1) hs
    · simp at hs

theorem reachable_inv {c : Config} {s : State} {sched : List Action}
    (hs : exec c (init c) sched = some s) : Inv c s :=
  exec_inv (init_inv c) hs

/-! ## Every step uses up the bound -/

theorem stepMain_decreases {c : Config} {s s' : State} (hx : s.exit = none)
    (hs : stepMain c s = some s') : stepsLeft c s' < stepsLeft c s := by
  obtain ⟨main, queue, pool, workers, results, wg, ic, oc, ds, sent, delivered, stdout,
    exit⟩ := s
  simp only at hx
  subst hx
  cases main <;> simp [stepMain] at hs
  all_goals (try (cases results <;> simp at hs))
  all_goals
    subst hs
    simp only [stepsLeft, MainPC.weight, QueuePC.weight, PoolPC.weight, ResultsPC.weight]
  · cases results <;> simp only [ResultsPC.weight] <;> omega
  · cases pool <;> simp only [PoolPC.weight] <;> omega
  · cases queue <;> simp only [QueuePC.weight] <;> omega
  · simp only [reduceCtorEq, if_true, if_false]
    omega

theorem stepQueue_decreases {c : Config} {s s' : State} (hx : s.exit = none)
    (hs : stepQueue c s = some s') : stepsLeft c s' < stepsLeft c s := by
  obtain ⟨main, queue, pool, workers, results, wg, ic, oc, ds, sent, delivered, stdout,
    exit⟩ := s
  simp only at hx
  subst hx
  unfold stepQueue at hs
  simp only at hs
  split at hs
  · split at hs
    · simp at hs
    · simp only [Option.some.injEq] at hs
      subst hs
      simp [stepsLeft, QueuePC.weight]
  · split at hs <;>
      · simp only [Option.some.injEq] at hs
        subst hs
        simp [stepsLeft, QueuePC.weight, crash]
  · simp at hs

theorem stepPool_decreases {c : Config} {s s' : State} (hx : s.exit = none)
    (hs : stepPool c s = some s') : stepsLeft c s' < stepsLeft c s := by
  obtain ⟨main, queue, pool, workers, results, wg, ic, oc, ds, sent, delivered, stdout,
    exit⟩ := s
  simp only at hx
  subst hx
  unfold stepPool at hs
  simp only at hs
  split at hs
  · split at hs
    · rename_i hi
      simp only [Option.some.injEq] at hs
      subst hs
      simp only [stepsLeft, PoolPC.weight]
      omega
    · split at hs
      · simp only [Option.some.injEq] at hs
        subst hs
        simp only [stepsLeft, PoolPC.weight]
        omega
      · simp at hs
  · simp only [Option.some.injEq] at hs
    subst hs
    simp only [stepsLeft, PoolPC.weight, workersWeight_append, workersWeight, WorkerPC.weight]
    omega
  · split at hs <;>
      · simp only [Option.some.injEq] at hs
        subst hs
        simp [stepsLeft, PoolPC.weight, crash]
  · simp at hs

theorem stepWorker_decreases {c : Config} {s s' : State} {w : Nat} (hx : s.exit = none)
    (hs : stepWorker c s w = some s') : stepsLeft c s' < stepsLeft c s := by
  obtain ⟨main, queue, pool, workers, results, wg, ic, oc, ds, sent, delivered, stdout,
    exit⟩ := s
  simp only at hx
  subst hx
  unfold stepWorker at hs
  simp only at hs
  split at hs
  · rename_i hw
    obtain ⟨l, r, hl, hset⟩ := workers_split hw
    subst hl
    simp only [hset] at hs
    clear hset hw
    split at hs
    · simp only [Option.some.injEq] at hs
      subst hs
      simp only [stepsLeft, workersWeight_append, workersWeight, WorkerPC.weight]
      omega
    · split at hs
      · split at hs
        · simp only [Option.some.injEq] at hs
          subst hs
          simp only [stepsLeft, workersWeight_append, workersWeight, WorkerPC.weight,
            QueuePC.weight, List.length_cons]
          omega
        · simp at hs
      · simp at hs
  · rename_i res hw
    obtain ⟨l, r, hl, hset⟩ := workers_split hw
    subst hl
    simp only [hset] at hs
    clear hset hw
    split at hs
    · simp only [Option.some.injEq] at hs
      subst hs
      simp [stepsLeft, crash]
    · split at hs
      · simp only [Option.some.injEq] at hs
        subst hs
        simp only [stepsLeft, workersWeight_append, workersWeight, WorkerPC.weight,
          ResultsPC.weight]
        omega
      · simp at hs
  · rename_i hw
    obtain ⟨l, r, hl, hset⟩ := workers_split hw
    subst hl
    simp only [hset] at hs
    clear hset hw
    split at hs
    · simp only [Option.some.injEq] at hs
      subst hs
      simp [stepsLeft, crash]
    · simp only [Option.some.injEq] at hs
      subst hs
      simp only [stepsLeft, workersWeight_append, workersWeight, WorkerPC.weight]
      omega
  · simp at hs

theorem stepRun_decreases {s s' : State} {w : Nat} {o : RunOutcome} (c : Config)
    (hs : stepRun s w o = some s') : stepsLeft c s' < stepsLeft c s := by
  obtain ⟨main, queue, pool, workers, results, wg, ic, oc, ds, sent, delivered, stdout,
    exit⟩ := s
  unfold stepRun at hs
  simp only at hs
  split at hs
  · rename_i cmd hw
    obtain ⟨l, r, hl, hset⟩ := workers_split hw
    subst hl
    simp only [hset, Option.some.injEq] at hs
    clear hset hw
    subst hs
    simp only [stepsLeft, workersWeight_append, workersWeight, WorkerPC.weight]
    omega
  · simp at hs

theorem stepResults_decreases {s s' : State} (c : Config)
    (hs : stepResults s = some s') : stepsLeft c s' < stepsLeft c s := by
  obtain ⟨main, queue, pool, workers, results, wg, ic, oc, ds, sent, delivered, stdout,
    exit⟩ := s
  unfold stepResults at hs
  simp only at hs
  split at hs
  · split at hs
    · simp only [Option.some.injEq] at hs
      subst hs
      simp only [stepsLeft, ResultsPC.weight]
      omega
    · simp at hs
  · simp only [Option.some.injEq] at hs
    subst hs
    simp only [stepsLeft, ResultsPC.weight]
    omega
  · simp at hs

theorem step_alive {c : Config} {s s' : State} {a : Action} (hs : step c s a = some s') :
    s.exit = none := by
  unfold step at hs
  split at hs
  · simp at hs
  · rename_i hx
    cases he : s.exit with
    | none => rfl
    | some n => simp [he] at hx

theorem step_decreases {c : Config} {s s' : State} {a : Action}
    (hs : step c s a = some s') : stepsLeft c s' < stepsLeft c s := by
  have hx := step_alive hs
  unfold step at hs
  split at hs
  · simp at hs
  · cases a with
    | main => exact stepMain_decreases hx hs
    | queue => exact stepQueue_decreases hx hs
    | pool => exact stepPool_decreases hx hs
    | worker w => exact stepWorker_decreases hx hs
    | run w o => exact stepRun_decreases c hs
    | results => exact stepResults_decreases c hs

theorem exec_length {c : Config} {s s' : State} {sched : List Action}
    (hs : exec c s sched = some s') : stepsLeft c s' + sched.length ≤ stepsLeft c s := by
  induction sched generalizing s with
  | nil =>
    simp only [exec, Option.some.injEq] at hs
    subst hs
    simp
  | cons a as ih =>
    simp only [exec] at hs
    split at hs
    · rename_i s1 h1
      have h2 := ih hs
      have h3 := step_decreases h1
      simp only [List.length_cons]
      omega
    · simp at hs

/-! ## No deadlock: a live process always has a step -/

theorem progress_isSome {c : Config} {s : State} (h : Inv c s) (hx : s.exit = none) :
    ∃ a, (step c s a).isSome = true := by
  obtain ⟨main, queue, pool, workers, results, wg, ic, oc, ds, sent, delivered, stdout,
    exit⟩ := s
  obtain ⟨h1, h2, h3, h4, h5, h6, h7, h8, h9, h10, h11, h12, h13, h14, h15, h16, h17⟩ := h
  simp only at hx h1 h2 h3 h4 h5 h6 h7 h8 h9 h10 h11 h12 h13 h14 h15 h16 h17
  subst hx
  cases main with
  | goResults => exact ⟨.main, by simp [step, stepMain]⟩
  | goPool => exact ⟨.main, by simp [step, stepMain]⟩
  | goQueue => exact ⟨.main, by simp [step, stepMain]⟩
  | returned => simp at h1
  | recvDone =>
    cases results with
    | idle => simp at h2
    | returned => simp at h3
    | print r => exact ⟨.results, by simp [step, stepResults]⟩
    | sendDone => exact ⟨.main, by simp [step, stepMain]⟩
    | recv =>
      by_cases hoc : oc = 0
      swap
      · exact ⟨.results, by simp [step, stepResults, hoc]⟩
      cases pool with
      | idle => simp at h5
      | returned =>
        simp only [if_true] at h13
        omega
      | close => exact ⟨.pool, by simp [step, stepPool, hoc]⟩
      | spawn i => exact ⟨.pool, by simp [step, stepPool]⟩
      | loop i =>
        by_cases hi : i < c.workers
        · exact ⟨.pool, by simp [step, stepPool, hi]⟩
        by_cases hwg : wg = 0
        · exact ⟨.pool, by simp [step, stepPool, hi, hwg]⟩
        have hlive : liveCount workers ≠ 0 := by
          simp only [poolPending, Nat.add_zero] at h11
          omega
        obtain ⟨w, pc, hw, hpc⟩ := exists_live hlive
        cases pc with
        | exited => exact absurd rfl hpc
        | run cmd => exact ⟨.run w ⟨none, "", ""⟩, by simp [step, stepRun, hw]⟩
        | send r => exact ⟨.worker w, by simp [step, stepWorker, hw, hoc]⟩
        | done => exact ⟨.worker w, by simp [step, stepWorker, hw, hwg]⟩
        | recv =>
          by_cases hic : ic = 0
          swap
          · exact ⟨.worker w, by simp [step, stepWorker, hw, hic]⟩
          cases queue with
          | idle => simp at h6
          | returned =>
            simp only [if_true] at h8
            omega
          | loop rest =>
            cases rest with
            | nil => exact ⟨.queue, by simp [step, stepQueue, hic]⟩
            | cons file rest =>
              cases hq : queueCmd c file with
              | none => exact ⟨.queue, by simp [step, stepQueue, hq]⟩
              | some cmd => exact ⟨.worker w, by simp [step, stepWorker, hw, hic, hq]⟩

theorem progress {c : Config} {s : State} (h : Inv c s) (hx : s.exit = none) :
    ∃ a s', step c s a = some s' := by
  obtain ⟨a, ha⟩ := progress_isSome h hx
  exact ⟨a, Option.isSome_iff_exists.1 ha⟩

/-- A process that is over takes no step. -/
theorem step_none_of_exit {c : Config} {s : State} {a : Action} (hx : s.exit ≠ none) :
    step c s a = none := by
  unfold step
  cases he : s.exit with
  | none => exact absurd he hx
  | some n => simp

/-! ## What holds once `out` is closed and once `main` has returned -/

theorem closed_facts {c : Config} {s : State} (h : Inv c s) (hoc : s.outCloses ≠ 0) :
    s.pool = .returned ∧ s.workers.length = c.workers ∧ s.wg = 0 ∧
      (∀ w ∈ s.workers, w = WorkerPC.exited) ∧ inflight s.workers = [] ∧
      (s.delivered.map result.cmd).Perm s.sent := by
  have hp : s.pool = .returned := by
    by_contra hp
    have := h.out_closes
    simp only [hp, if_false] at this
    exact hoc this
  have hwg : s.wg = 0 := h.pool_waited (Or.inr hp)
  have hlive : liveCount s.workers = 0 := by
    have := h.wg_eq
    omega
  have hall := liveCount_eq_zero hlive
  have hfl := inflight_eq_nil hall
  refine ⟨hp, ?_, hwg, hall, hfl, ?_⟩
  · have := h.spawned
    simpa [hp, poolSpawned] using this
  · have := h.accounted
    simpa [hfl] using this

theorem returned_facts {c : Config} {s : State} (h : Inv c s) (hW : 1 ≤ c.workers)
    (hoc : s.outCloses ≠ 0) :
    s.queue = .returned ∧ s.sent = queueCmds c c.files ∧
      (s.delivered.map result.cmd).Perm (queueCmds c c.files) := by
  obtain ⟨_, hlen, _, hall, _, hperm⟩ := closed_facts h hoc
  have hne : s.workers ≠ [] := by
    intro hnil
    rw [hnil] at hlen
    simp at hlen
    omega
  obtain ⟨w, ws, hws⟩ := List.exists_cons_of_ne_nil hne
  have hw : w ∈ s.workers := by simp [hws]
  have hic : s.inCloses = 1 := h.past_loop w hw (Or.inr (hall w hw))
  have hq : s.queue = .returned := by
    by_contra hq
    have := h.in_closes
    simp only [hq, if_false] at this
    omega
  have hsent : s.sent = queueCmds c c.files := by
    have := h.sent_eq
    simpa [hq, queueRest, queueCmds] using this
  exact ⟨hq, hsent, hsent ▸ hperm⟩

theorem exit_facts {c : Config} {s : State} (h : Inv c s) (hx : s.exit ≠ none) :
    s.exit = some 0 ∧ s.main = .returned ∧ s.results = .returned ∧ s.doneSends = 1 ∧
      s.outCloses = 1 ∧
      s.stdout = headerLine c.files.length :: s.delivered.map resultLine := by
  have hm : s.main = .returned := by
    by_contra hm
    have := h.exit_eq
    simp only [hm, if_false] at this
    exact hx this
  have hr : s.results = .returned := h.results_returned.2 hm
  have hp := h.printed
  simp only [hr, pendingPrint, List.map_nil, List.append_nil] at hp
  refine ⟨?_, hm, hr, ?_, h.results_past (Or.inr hr), hp⟩
  · have := h.exit_eq
    simpa [hm] using this
  · have := h.done_sends
    simpa [hm] using this

theorem done_facts {c : Config} {s : State} (h : Inv c s) (hd : s.doneSends ≠ 0) :
    s.main = .returned ∧ s.outCloses = 1 := by
  have hm : s.main = .returned := by
    by_contra hm
    have := h.done_sends
    simp only [hm, if_false] at this
    exact hd this
  exact ⟨hm, h.results_past (Or.inr (h.results_returned.2 hm))⟩

theorem step_sent {c : Config} {s s' : State} {a : Action} (hs : step c s a = some s') :
    s'.sent = s.sent ∨ (s.inCloses = 0 ∧ ∃ cmd, s'.sent = s.sent ++ [cmd]) := by
  unfold step at hs
  split at hs
  · simp at hs
  · cases a with
    | main =>
      simp only [stepMain] at hs
      split at hs
      · simp only [Option.some.injEq] at hs
        subst hs
        exact Or.inl rfl
      · simp only [Option.some.injEq] at hs
        subst hs
        exact Or.inl rfl
      · simp only [Option.some.injEq] at hs
        subst hs
        exact Or.inl rfl
      · split at hs
        · simp only [Option.some.injEq] at hs
          subst hs
          exact Or.inl rfl
        · simp at hs
      · simp at hs
    | queue =>
      simp only [stepQueue] at hs
      split at hs
      · split at hs
        · simp at hs
        · simp only [Option.some.injEq] at hs
          subst hs
          exact Or.inl rfl
      · split at hs <;>
          · simp only [Option.some.injEq] at hs
            subst hs
            exact Or.inl rfl
      · simp at hs
    | pool =>
      simp only [stepPool] at hs
      split at hs
      · split at hs
        · simp only [Option.some.injEq] at hs
          subst hs
          exact Or.inl rfl
        · split at hs
          · simp only [Option.some.injEq] at hs
            subst hs
            exact Or.inl rfl
          · simp at hs
      · simp only [Option.some.injEq] at hs
        subst hs
        exact Or.inl rfl
      · split at hs <;>
          · simp only [Option.some.injEq] at hs
            subst hs
            exact Or.inl rfl
      · simp at hs
    | worker w =>
      simp only [stepWorker] at hs
      split at hs
      · split at hs
        · simp only [Option.some.injEq] at hs
          subst hs
          exact Or.inl rfl
        · rename_i hic
          split at hs
          · split at hs
            · rename_i cmd _
              simp only [Option.some.injEq] at hs
              subst hs
              exact Or.inr ⟨by simpa using hic, cmd, rfl⟩
            · simp at hs
          · simp at hs
      · split at hs
        · simp only [Option.some.injEq] at hs
          subst hs
          exact Or.inl rfl
        · split at hs
          · simp only [Option.some.injEq] at hs
            subst hs
            exact Or.inl rfl
          · simp at hs
      · split at hs <;>
          · simp only [Option.some.injEq] at hs
            subst hs
            exact Or.inl rfl
      · simp at hs
    | run w o =>
      simp only [stepRun] at hs
      split at hs
      · simp only [Option.some.injEq] at hs
        subst hs
        exact Or.inl rfl
      · simp at hs
    | results =>
      simp only [stepResults] at hs
      split at hs
      · split at hs
        · simp only [Option.some.injEq] at hs
          subst hs
          exact Or.inl rfl
        · simp at hs
      · simp only [Option.some.injEq] at hs
        subst hs
        exact Or.inl rfl
      · simp at hs

theorem queueCmds_length_of_eligible (c : Config) (files : List String)
    (h : ∀ f ∈ files, c.fs.IsSwappableVideo f = true ∨ c.fs.IsSwappableAudio f = true) :
    (queueCmds c files).length = files.length := by
  induction files with
  | nil => rfl
  | cons f fs ih =>
    have hf := h f (List.mem_cons_self _ _)
    have ih1 := ih (fun g hg => h g (List.mem_cons_of_mem _ hg))
    rw [queueCmds_cons]
    have hsome : ∃ cmd, queueCmd c f = some cmd := by
      unfold queueCmd
      by_cases hv : c.fs.IsSwappableVideo f = true
      · exact ⟨c.fs.Mp4Command c.bin f, by simp [hv]⟩
      · have ha : c.fs.IsSwappableAudio f = true := hf.resolve_left hv
        exact ⟨c.fs.Mp3Command c.bin f, by simp [hv, ha]⟩
    obtain ⟨cmd, hcmd⟩ := hsome
    simp [hcmd, ih1]

theorem queueCmds_length (c : Config) (files : List String) :
    (queueCmds c files).length
      = (files.filter (fun f => c.fs.IsSwappableVideo f || c.fs.IsSwappableAudio f)).length := by
  induction files with
  | nil => rfl
  | cons f fs ih =>
    rw [queueCmds_cons]
    cases hv : c.fs.IsSwappableVideo f <;> cases ha : c.fs.IsSwappableAudio f <;>
      simp [queueCmd, hv, ha, ih, List.filter_cons]

theorem main_started {fs : Collab} {bin src : String} {files : List String}
    (hbin : bin ≠ "") (hsrc : src ≠ "") (hfound : fs.GetSwappableFiles src = (files, none))
    (hn : 1 ≤ files.length) :
    main fs bin src = .started (startConfig fs bin files) (init (startConfig fs bin files)) := by
  have hlen : files.length ≠ 0 := by omega
  simp [main, hbin, hsrc, hfound, hlen]

theorem workerCount_pos (n : Nat) : 1 ≤ workerCount n := by
  unfold workerCount
  simp only
  split <;> omega

theorem exists_run_to_exit {c : Config} (n : Nat) :
    ∀ s : State, stepsLeft c s ≤ n → Inv c s →
      ∃ sched s', exec c s sched = some s' ∧ s'.exit ≠ none := by
  induction n with
  | zero =>
    intro s hle hinv
    by_cases hx : s.exit = none
    · obtain ⟨a, s1, h1⟩ := progress hinv hx
      have := step_decreases h1
      omega
    · exact ⟨[], s, rfl, hx⟩
  | succ n ih =>
    intro s hle hinv
    by_cases hx : s.exit = none
    · obtain ⟨a, s1, h1⟩ := progress hinv hx
      have hlt := step_decreases h1
      obtain ⟨sched, s2, h2, hx2⟩ := ih s1 (by omega) (step_inv hinv h1)
      exact ⟨a :: sched, s2, by simp [exec, h1, h2], hx2⟩
    · exact ⟨[], s, rfl, hx⟩

/-! ## The claims -/

/-- C2: for every discovered file count `n >= 1`, the pipeline `main` starts has
`floor(n/2)` workers when that is not zero and 5 workers when it is zero; 10
files give 5 workers, 1 file gives 5 workers, and the rule is not
`max(5, floor(n/2))`: 4 files give 2 workers. -/
theorem worker_count_rule (fs : Collab) (bin src : String) (files : List String)
    (hbin : bin ≠ "") (hsrc : src ≠ "") (hfound : fs.GetSwappableFiles src = (files, none))
    (hn : 1 ≤ files.length) :
    (∃ c, main fs bin src = .started c (init c) ∧ c.files = files ∧
        c.workers = workerCount files.length) ∧
      workerCount files.length
        = (if files.length / 2 = 0 then 5 else files.length / 2) ∧
      workerCount 10 = 5 ∧ workerCount 1 = 5 ∧
      (workerCount 4 = 2 ∧ max 5 (4 / 2) = 5) := by
  refine ⟨⟨_, main_started hbin hsrc hfound hn, rfl, rfl⟩, rfl, ?_, ?_, ?_, ?_⟩ <;> decide

theorem worker_count_rule_witness :
    ("ffmpeg" ≠ "" ∧ "videos" ≠ "" ∧
        sampleCollab.GetSwappableFiles "videos" = (["a.mkv", "b.m4a"], none) ∧
        1 ≤ ["a.mkv", "b.m4a"].length) ∧
      main sampleCollab "ffmpeg" "videos" = .started sampleConfig (init sampleConfig) ∧
      workerCount ["a.mkv", "b.m4a"].length = 1 := by
  have h := worker_count_rule sampleCollab "ffmpeg" "videos" ["a.mkv", "b.m4a"]
    (by decide) (by decide) rfl (by decide)
  exact ⟨⟨by decide, by decide, rfl, by decide⟩, rfl, h.2.1⟩

/-- C3: when `cmd.Run()` returns an error and the captured stderr contains
"already exists. Overwrite ? [y/N]" anywhere, the result the worker builds has
the error "mp4 file already exists", whatever the run error and the rest of
the output; and from any live state in which the worker holds the command and
`results` waits on an open `out`, running and sending delivers that record. -/
theorem existing_destination_reported (cmd : Cmd) (o : RunOutcome) (e : GoError)
    (pre post : List Char) (herr : o.err = some e)
    (hsub : o.cmderr.data = pre ++ overwritePrompt.data ++ post) :
    workerBody cmd o = { cmd := cmd, err := some ⟨"mp4 file already exists"⟩ } ∧
      ∀ (c : Config) (s : State) (w : Nat), s.exit = none →
        s.workers[w]? = some (.run cmd) → s.results = .recv → s.outCloses = 0 →
        ∃ s', exec c s [.run w o, .worker w] = some s' ∧
          s'.delivered = s.delivered ++ [{ cmd := cmd, err := some ⟨"mp4 file already exists"⟩ }] := by
  have hc : Contains o.cmderr overwritePrompt = true :=
    (Contains_iff _ _).2 ⟨pre, post, hsub⟩
  have hb : workerBody cmd o = { cmd := cmd, err := some ⟨"mp4 file already exists"⟩ } := by
    simp [workerBody, herr, hc, Errorf]
  refine ⟨hb, ?_⟩
  intro c s w hx hw hr hoc
  have hlt : w < s.workers.length := by
    by_contra hlt
    rw [List.getElem?_eq_none (by omega)] at hw
    simp at hw
  simp [exec, step, stepRun, stepWorker, hx, hw, hr, hoc, hb, hlt]

theorem existing_destination_reported_witness :
    (existsOutcome.err = some ⟨"exit status 1"⟩ ∧
        existsOutcome.cmderr.data
          = "File b.mp3 ".data ++ overwritePrompt.data ++ " Not overwriting - exiting".data) ∧
      workerBody (sampleCollab.Mp4Command "ffmpeg" "a.mkv") existsOutcome
        = { cmd := sampleCollab.Mp4Command "ffmpeg" "a.mkv",
            err := some ⟨"mp4 file already exists"⟩ } ∧
      ∃ s', exec sampleConfig sampleHolding [.run 0 existsOutcome, .worker 0] = some s' ∧
        s'.delivered = sampleHolding.delivered ++
          [{ cmd := sampleCollab.Mp4Command "ffmpeg" "a.mkv",
             err := some ⟨"mp4 file already exists"⟩ }] := by
  have h := existing_destination_reported (sampleCollab.Mp4Command "ffmpeg" "a.mkv")
    existsOutcome ⟨"exit status 1"⟩ "File b.mp3 ".data " Not overwriting - exiting".data rfl
    (by decide)
  exact ⟨⟨rfl, by decide⟩, h.1, h.2 sampleConfig sampleHolding 0 rfl rfl rfl rfl⟩

/-- C4: when `cmd.Run()` returns an error `e` and the captured stderr does not
contain "already exists. Overwrite ? [y/N]", the result the worker builds
carries `e` itself; and from any live state in which the worker holds the
command and `results` waits on an open `out`, running and sending delivers
that record. -/
theorem other_error_kept (cmd : Cmd) (o : RunOutcome) (e : GoError) (herr : o.err = some e)
    (hsub : ¬ ∃ pre post, o.cmderr.data = pre ++ overwritePrompt.data ++ post) :
    workerBody cmd o = { cmd := cmd, err := some e } ∧
      ∀ (c : Config) (s : State) (w : Nat), s.exit = none →
        s.workers[w]? = some (.run cmd) → s.results = .recv → s.outCloses = 0 →
        ∃ s', exec c s [.run w o, .worker w] = some s' ∧
          s'.delivered = s.delivered ++ [{ cmd := cmd, err := some e }] := by
  have hc : Contains o.cmderr overwritePrompt = false := by
    cases h : Contains o.cmderr overwritePrompt with
    | false => rfl
    | true => exact absurd ((Contains_iff _ _).1 h) hsub
  have hb : workerBody cmd o = { cmd := cmd, err := some e } := by
    simp [workerBody, herr, hc]
  refine ⟨hb, ?_⟩
  intro c s w hx hw hr hoc
  have hlt : w < s.workers.length := by
    by_contra hlt
    rw [List.getElem?_eq_none (by omega)] at hw
    simp at hw
  simp [exec, step, stepRun, stepWorker, hx, hw, hr, hoc, hb, hlt]

theorem other_error_kept_witness :
    (brokenOutcome.err = some ⟨"exit status 1"⟩ ∧
        ¬ ∃ pre post, brokenOutcome.cmderr.data = pre ++ overwritePrompt.data ++ post) ∧
      workerBody (sampleCollab.Mp4Command "ffmpeg" "a.mkv") brokenOutcome
        = { cmd := sampleCollab.Mp4Command "ffmpeg" "a.mkv", err := some ⟨"exit status 1"⟩ } := by
  have hno : ¬ ∃ pre post, brokenOutcome.cmderr.data = pre ++ overwritePrompt.data ++ post := by
    intro h
    have hc := (Contains_iff brokenOutcome.cmderr overwritePrompt).2 h
    revert hc
    decide
  exact ⟨⟨rfl, hno⟩,
    (other_error_kept (sampleCollab.Mp4Command "ffmpeg" "a.mkv") brokenOutcome
      ⟨"exit status 1"⟩ rfl hno).1⟩

/-- C5: when `cmd.Run()` returns no error, the result the worker builds has
`err = nil`, whatever the captured stderr holds, the overwrite prompt
included; and from any live state in which the worker holds the command and
`results` waits on an open `out`, running and sending delivers that record. -/
theorem success_whatever_stderr (cmd : Cmd) (o : RunOutcome) (herr : o.err = none) :
    workerBody cmd o = { cmd := cmd, err := none } ∧
      ∀ (c : Config) (s : State) (w : Nat), s.exit = none →
        s.workers[w]? = some (.run cmd) → s.results = .recv → s.outCloses = 0 →
        ∃ s', exec c s [.run w o, .worker w] = some s' ∧
          s'.delivered = s.delivered ++ [{ cmd := cmd, err := none }] := by
  have hb : workerBody cmd o = { cmd := cmd, err := none } := by
    simp [workerBody, herr]
  refine ⟨hb, ?_⟩
  intro c s w hx hw hr hoc
  have hlt : w < s.workers.length := by
    by_contra hlt
    rw [List.getElem?_eq_none (by omega)] at hw
    simp at hw
  simp [exec, step, stepRun, stepWorker, hx, hw, hr, hoc, hb, hlt]

theorem success_whatever_stderr_witness :
    (noisyOutcome.err = none ∧ Contains noisyOutcome.cmderr overwritePrompt = true) ∧
      workerBody (sampleCollab.Mp3Command "ffmpeg" "b.m4a") noisyOutcome
        = { cmd := sampleCollab.Mp3Command "ffmpeg" "b.m4a", err := none } :=
  ⟨⟨rfl, by decide⟩,
    (success_whatever_stderr (sampleCollab.Mp3Command "ffmpeg" "b.m4a") noisyOutcome rfl).1⟩

/-- C7: `main` ends with exit status 1, a diagnostic on standard error and no
pipeline exactly when the bin path is empty, or the src path is empty, or
discovery returns an error or an empty list.  An empty bin path gives the
message naming `-bin`; a given bin path with an empty src path gives the
message naming `-src`; a failed discovery gives the "Could not find" message.
In every other case the pipeline is started in its first state, with the
header printed, and no state it reaches has exit status 1. -/
theorem main_fatal_iff (fs : Collab) (bin src : String) :
    ((∃ msg, main fs bin src = .fatal msg 1 ∧ msg ≠ "") ↔
        (bin = "" ∨ src = "" ∨ (fs.GetSwappableFiles src).2 ≠ none ∨
          (fs.GetSwappableFiles src).1 = [])) ∧
      (bin = "" → main fs bin src = .fatal "The -bin flag must be specified\n" 1) ∧
      (bin ≠ "" → src = "" → main fs bin src = .fatal "The -src flag must be specified\n" 1) ∧
      (bin ≠ "" → src ≠ "" →
        ((fs.GetSwappableFiles src).2 ≠ none ∨ (fs.GetSwappableFiles src).1 = []) →
        main fs bin src = .fatal
          ("Could not find mkv/m4a files: " ++ fmtError (fs.GetSwappableFiles src).2 ++ "\n") 1) ∧
      (¬ (bin = "" ∨ src = "" ∨ (fs.GetSwappableFiles src).2 ≠ none ∨
            (fs.GetSwappableFiles src).1 = []) →
        ∃ c, main fs bin src = .started c (init c) ∧ c.fs = fs ∧ c.bin = bin ∧
          c.files = (fs.GetSwappableFiles src).1 ∧
          c.workers = workerCount (fs.GetSwappableFiles src).1.length ∧
          (init c).stdout = [headerLine c.files.length] ∧
          ∀ sched s, exec c (init c) sched = some s → s.exit ≠ some 1) := by
  have hA : bin = "" → main fs bin src = .fatal "The -bin flag must be specified\n" 1 := by
    intro hb
    simp [main, hb]
  have hB : bin ≠ "" → src = "" →
      main fs bin src = .fatal "The -src flag must be specified\n" 1 := by
    intro hb hs
    simp [main, hb, hs]
  have hC : bin ≠ "" → src ≠ "" →
      ((fs.GetSwappableFiles src).2 ≠ none ∨ (fs.GetSwappableFiles src).1 = []) →
      main fs bin src = .fatal
        ("Could not find mkv/m4a files: " ++ fmtError (fs.GetSwappableFiles src).2 ++ "\n") 1 := by
    intro hb hs hd
    rcases hfound : fs.GetSwappableFiles src with ⟨files, err⟩
    rw [hfound] at hd
    simp only at hd
    have hd2 : err ≠ none ∨ files.length = 0 := by
      rcases hd with h | h
      · exact Or.inl h
      · exact Or.inr (by simp [h])
    simp only [main, hb, hs, hfound, if_false]
    rw [if_pos hd2]
  have hD : ¬ (bin = "" ∨ src = "" ∨ (fs.GetSwappableFiles src).2 ≠ none ∨
        (fs.GetSwappableFiles src).1 = []) →
      ∃ c, main fs bin src = .started c (init c) ∧ c.fs = fs ∧ c.bin = bin ∧
        c.files = (fs.GetSwappableFiles src).1 ∧
        c.workers = workerCount (fs.GetSwappableFiles src).1.length ∧
        (init c).stdout = [headerLine c.files.length] ∧
        ∀ sched s, exec c (init c) sched = some s → s.exit ≠ some 1 := by
    intro hno
    simp only [not_or, ne_eq, not_not] at hno
    obtain ⟨hb, hs, he, hf⟩ := hno
    rcases hfound : fs.GetSwappableFiles src with ⟨files, err⟩
    rw [hfound] at he hf
    simp only at he hf
    subst he
    have hn : 1 ≤ files.length := by
      cases files with
      | nil => exact absurd rfl hf
      | cons a l => simp
    refine ⟨_, main_started hb hs hfound hn, rfl, rfl, rfl, rfl, rfl, ?_⟩
    intro sched s hs1 hx
    have hinv := reachable_inv hs1
    have := (exit_facts hinv (by simp [hx])).1
    rw [hx] at this
    simp at this
  refine ⟨⟨?_, ?_⟩, hA, hB, hC, hD⟩
  · rintro ⟨msg, hmsg, _⟩
    by_contra hno
    obtain ⟨c, hc, _⟩ := hD hno
    rw [hc] at hmsg
    simp at hmsg
  · intro h
    by_cases hb : bin = ""
    · exact ⟨_, hA hb, by decide⟩
    by_cases hs : src = ""
    · exact ⟨_, hB hb hs, by decide⟩
    have hd : (fs.GetSwappableFiles src).2 ≠ none ∨ (fs.GetSwappableFiles src).1 = [] := by
      rcases h with h | h | h | h
      · exact absurd h hb
      · exact absurd h hs
      · exact Or.inl h
      · exact Or.inr h
    refine ⟨_, hC hb hs hd, ?_⟩
    intro hemp
    have hlen := congrArg String.length hemp
    simp only [String.length_append] at hlen
    have h1 : "\n".length = 1 := by decide
    have h0 : "".length = 0 := by decide
    omega

/-- C1: for every list of commands `queue` sends, every worker count `W >= 1`
and every schedule: once `results` has signalled `done`, `queue` has sent all
its commands, exactly that many records have been delivered on `out`, and the
multiset of their commands is the multiset of the commands sent; and every
schedule can be continued until `done` is signalled. -/
theorem no_job_lost_or_duplicated (c : Config) (hW : 1 ≤ c.workers) (sched : List Action)
    (s : State) (hs : exec c (init c) sched = some s) :
    (1 ≤ s.doneSends →
        s.sent = queueCmds c c.files ∧
        s.delivered.length = (queueCmds c c.files).length ∧
        (↑(s.delivered.map result.cmd) : Multiset Cmd) = ↑(queueCmds c c.files)) ∧
      ∃ more s', exec c s more = some s' ∧ 1 ≤ s'.doneSends := by
  have hinv := reachable_inv hs
  constructor
  · intro hdone
    obtain ⟨_, hoc⟩ := done_facts hinv (by omega)
    obtain ⟨_, hsent, hperm⟩ := returned_facts hinv hW (by omega)
    refine ⟨hsent, ?_, Multiset.coe_eq_coe.2 hperm⟩
    have := hperm.length_eq
    simpa using this
  · obtain ⟨more, s', h1, h2⟩ := exists_run_to_exit _ s (Nat.le_refl _) hinv
    have := (exit_facts (exec_inv hinv h1) h2).2.2.2.1
    exact ⟨more, s', h1, by omega⟩

theorem no_job_lost_or_duplicated_witness :
    (1 ≤ sampleConfig.workers ∧
        exec sampleConfig (init sampleConfig) sampleSchedule = some sampleFinal ∧
        1 ≤ sampleFinal.doneSends) ∧
      sampleFinal.sent = queueCmds sampleConfig sampleConfig.files ∧
      sampleFinal.delivered.length = (queueCmds sampleConfig sampleConfig.files).length ∧
      (↑(sampleFinal.delivered.map result.cmd) : Multiset Cmd)
        = ↑(queueCmds sampleConfig sampleConfig.files) :=
  ⟨⟨by decide, by decide, by decide⟩,
    (no_job_lost_or_duplicated sampleConfig (by decide) sampleSchedule sampleFinal
      (by decide)).1 (by decide)⟩

/-- C6: in every reachable state the text on standard output is the header of
`main` followed by one line per record `results` has received, in the order
received, the record it still holds excepted; the line is " - Swapped: <Input>"
for a record without error and " - Failed: <Input>: <error text>" for a record
with one; nothing else is printed. -/
theorem results_prints_each_record (c : Config) (sched : List Action) (s : State)
    (hs : exec c (init c) sched = some s) :
    s.stdout ++ (pendingPrint s.results).map resultLine
        = headerLine c.files.length :: s.delivered.map resultLine ∧
      ((∀ r, s.results ≠ .print r) →
        s.stdout = headerLine c.files.length :: s.delivered.map resultLine) ∧
      (∀ cmd : Cmd, resultLine ⟨cmd, none⟩ = " - Swapped: " ++ cmd.Input ++ "\n") ∧
      (∀ (cmd : Cmd) (e : GoError),
        resultLine ⟨cmd, some e⟩ = " - Failed: " ++ cmd.Input ++ ": " ++ e.msg ++ "\n") := by
  have hinv := reachable_inv hs
  refine ⟨hinv.printed, ?_, fun _ => rfl, fun _ _ => rfl⟩
  intro hr
  have hp := hinv.printed
  cases hres : s.results with
  | print r => exact absurd hres (hr r)
  | idle => simpa [hres, pendingPrint] using hp
  | recv => simpa [hres, pendingPrint] using hp
  | sendDone => simpa [hres, pendingPrint] using hp
  | returned => simpa [hres, pendingPrint] using hp

theorem results_prints_each_record_witness :
    exec sampleConfig (init sampleConfig) sampleSchedule = some sampleFinal ∧
      sampleFinal.stdout = ["Swapping 2 videos: \n", " - Swapped: a.mkv\n",
        " - Failed: b.m4a: mp4 file already exists\n"] ∧
      sampleFinal.stdout
        = headerLine sampleConfig.files.length :: sampleFinal.delivered.map resultLine :=
  ⟨by decide, rfl,
    (results_prints_each_record sampleConfig sampleSchedule sampleFinal (by decide)).2.1
      (by intro r; simp [sampleFinal])⟩

/-- C8, as stated, fails: when discovery returns the one file `notes.txt`,
which is neither swappable video nor swappable audio, `main` prints the header
"Swapping 1 videos: " and starts the pipeline, and the run ends with exit
status 0 having printed no result line, not one. -/
theorem run_prints_fewer_lines_than_announced :
    main strayCollab "ffmpeg" "videos" = .started strayConfig (init strayConfig) ∧
      strayConfig.files = ["notes.txt"] ∧
      (init strayConfig).stdout = ["Swapping 1 videos: \n"] ∧
      exec strayConfig (init strayConfig) straySchedule = some strayFinal ∧
      strayFinal.exit = some 0 ∧
      strayFinal.stdout = ["Swapping 1 videos: \n"] ∧
      strayFinal.delivered = [] ∧
      (strayFinal.delivered.map resultLine).length ≠ strayConfig.files.length :=
  ⟨rfl, rfl, by decide, by decide, rfl, rfl, rfl, by decide⟩

/-- C8, amended: for every discovered file list of length `n >= 1`, `main`
prints the header "Swapping n videos: " (`n` in decimal) and starts the
pipeline; every schedule is finite, a process that is not over always has a
step and can be run to its end, and when it is over its exit status is 0 and
standard output is that header followed by exactly one result line per file
classified as swappable video or audio, whatever errors the jobs returned;
that is `n` lines when every discovered file is so classified. -/
theorem run_prints_header_and_classified_lines (fs : Collab) (bin src : String)
    (files : List String) (hbin : bin ≠ "") (hsrc : src ≠ "")
    (hfound : fs.GetSwappableFiles src = (files, none)) (hn : 1 ≤ files.length) :
    main fs bin src = .started (startConfig fs bin files) (init (startConfig fs bin files)) ∧
      (init (startConfig fs bin files)).stdout
        = ["Swapping " ++ toString files.length ++ " videos: \n"] ∧
      ∀ sched s,
        exec (startConfig fs bin files) (init (startConfig fs bin files)) sched = some s →
        sched.length ≤ stepsLeft (startConfig fs bin files) (init (startConfig fs bin files)) ∧
        (s.exit = none → ∃ a s', step (startConfig fs bin files) s a = some s') ∧
        (∃ more s', exec (startConfig fs bin files) s more = some s' ∧ s'.exit = some 0) ∧
        (s.exit ≠ none →
          s.exit = some 0 ∧
          s.stdout = ("Swapping " ++ toString files.length ++ " videos: \n")
            :: s.delivered.map resultLine ∧
          (s.delivered.map result.cmd).Perm (queueCmds (startConfig fs bin files) files) ∧
          (s.delivered.map resultLine).length
            = (files.filter (fun f => fs.IsSwappableVideo f || fs.IsSwappableAudio f)).length ∧
          ((∀ f ∈ files, fs.IsSwappableVideo f = true ∨ fs.IsSwappableAudio f = true) →
            (s.delivered.map resultLine).length = files.length)) := by
  refine ⟨main_started hbin hsrc hfound hn, rfl, ?_⟩
  intro sched s hs
  have hinv := reachable_inv hs
  have hfinal : ∀ t : State, Inv (startConfig fs bin files) t → t.exit ≠ none →
      t.exit = some 0 ∧
      t.stdout = ("Swapping " ++ toString files.length ++ " videos: \n")
        :: t.delivered.map resultLine ∧
      (t.delivered.map result.cmd).Perm (queueCmds (startConfig fs bin files) files) ∧
      (t.delivered.map resultLine).length
        = (files.filter (fun f => fs.IsSwappableVideo f || fs.IsSwappableAudio f)).length ∧
      ((∀ f ∈ files, fs.IsSwappableVideo f = true ∨ fs.IsSwappableAudio f = true) →
        (t.delivered.map resultLine).length = files.length) := by
    intro t ht hx
    obtain ⟨h0, _, _, _, hoc, hout⟩ := exit_facts ht hx
    obtain ⟨_, _, hperm⟩ :=
      returned_facts ht (workerCount_pos files.length) (by omega)
    have h1 := hperm.length_eq
    simp only [List.length_map] at h1
    refine ⟨h0, hout, hperm, ?_, ?_⟩
    · simp only [List.length_map]
      exact h1.trans (queueCmds_length (startConfig fs bin files) files)
    · intro helig
      simp only [List.length_map]
      exact h1.trans (queueCmds_length_of_eligible (startConfig fs bin files) files helig)
  refine ⟨?_, fun hx => progress hinv hx, ?_, hfinal s hinv⟩
  · have := exec_length hs
    omega
  · obtain ⟨more, s', h1, h2⟩ := exists_run_to_exit _ s (Nat.le_refl _) hinv
    exact ⟨more, s', h1, (hfinal s' (exec_inv hinv h1) h2).1⟩

theorem run_prints_header_and_classified_lines_witness :
    ("ffmpeg" ≠ "" ∧ "videos" ≠ "" ∧
        sampleCollab.GetSwappableFiles "videos" = (["a.mkv", "b.m4a"], none) ∧
        1 ≤ ["a.mkv", "b.m4a"].length) ∧
      exec sampleConfig (init sampleConfig) sampleSchedule = some sampleFinal ∧
      sampleFinal.exit = some 0 ∧
      sampleFinal.stdout = ["Swapping 2 videos: \n", " - Swapped: a.mkv\n",
        " - Failed: b.m4a: mp4 file already exists\n"] ∧
      (sampleFinal.delivered.map resultLine).length = 2 := by
  have h := run_prints_header_and_classified_lines sampleCollab "ffmpeg" "videos"
    ["a.mkv", "b.m4a"] (by decide) (by decide) rfl (by decide)
  have h2 := (h.2.2 sampleSchedule sampleFinal (by decide)).2.2.2 (by decide)
  exact ⟨⟨by decide, by decide, rfl, by decide⟩, by decide, h2.1, rfl, h2.2.2.2.2 (by decide)⟩

/-- C9: in every reachable state `out` has been closed at most once; when it
is closed all `W` workers have been started and have returned through
`wg.Done()`, the counter is zero, no worker holds a command or a result, and
every command sent has its record delivered; `results` has sent on `done` at
most once and only with `out` closed; no panic occurs; and when the process is
over `out` has been closed once and `done` signalled once. -/
theorem out_closed_after_all_workers (c : Config) (sched : List Action) (s : State)
    (hs : exec c (init c) sched = some s) :
    s.outCloses ≤ 1 ∧
      (s.outCloses = 1 →
        s.workers.length = c.workers ∧ (∀ w ∈ s.workers, w = WorkerPC.exited) ∧ s.wg = 0 ∧
          inflight s.workers = [] ∧ (s.delivered.map result.cmd).Perm s.sent) ∧
      s.doneSends ≤ 1 ∧
      (s.doneSends = 1 → s.outCloses = 1) ∧
      s.exit ≠ some 2 ∧
      (s.exit ≠ none → s.outCloses = 1 ∧ s.doneSends = 1) := by
  have hinv := reachable_inv hs
  refine ⟨?_, ?_, ?_, ?_, ?_, ?_⟩
  · have := hinv.out_closes
    split at this <;> omega
  · intro hoc
    obtain ⟨_, h1, h2, h3, h4, h5⟩ := closed_facts hinv (by omega)
    exact ⟨h1, h3, h2, h4, h5⟩
  · have := hinv.done_sends
    split at this <;> omega
  · intro hd
    exact (done_facts hinv (by omega)).2
  · intro hx
    have := (exit_facts hinv (by simp [hx])).1
    rw [hx] at this
    simp at this
  · intro hx
    obtain ⟨_, _, _, hd, hoc, _⟩ := exit_facts hinv hx
    exact ⟨hoc, hd⟩

theorem out_closed_after_all_workers_witness :
    exec sampleConfig (init sampleConfig) sampleSchedule = some sampleFinal ∧
      sampleFinal.outCloses = 1 ∧ sampleFinal.doneSends = 1 ∧
      sampleFinal.workers.length = sampleConfig.workers ∧
      (∀ w ∈ sampleFinal.workers, w = WorkerPC.exited) := by
  have h := out_closed_after_all_workers sampleConfig sampleSchedule sampleFinal (by decide)
  have h2 := h.2.1 rfl
  exact ⟨by decide, rfl, rfl, h2.1, h2.2.1⟩

/-- C10, as stated, fails: on the file list `["notes.txt"]`, a file that is
neither swappable video nor swappable audio, `queue` runs to its end, closes
`in` and has sent no command, not one per file. -/
theorem queue_skips_other_files :
    exec skipConfig (init skipConfig) skipSchedule = some skipFinal ∧
      skipConfig.files = ["notes.txt"] ∧
      skipFinal.queue = .returned ∧ skipFinal.inCloses = 1 ∧
      skipFinal.sent = [] ∧ skipFinal.sent.length ≠ skipConfig.files.length := by
  decide

/-- C10, amended: for every file list, `queue` sends on `in`, in the order of
the list, exactly one command per file classified as swappable video or
audio, `Mp4Command(bin, file)` for video and otherwise `Mp3Command(bin, file)`
for audio, and none for a file classified as neither (so one per file when
every file is classified); what has been sent is always an initial part of
that list and is all of it once `queue` has returned; `in` is closed at most
once, exactly when `queue` has returned, and no step sends on `in` after. -/
theorem queue_sends_classified_files_in_order (c : Config) (sched : List Action) (s : State)
    (hs : exec c (init c) sched = some s) :
    s.sent ++ queueCmds c (queueRest c s.queue) = queueCmds c c.files ∧
      (s.queue = .returned → s.sent = queueCmds c c.files) ∧
      queueCmds c c.files = c.files.filterMap (fun file =>
        if c.fs.IsSwappableVideo file then some (c.fs.Mp4Command c.bin file)
        else if c.fs.IsSwappableAudio file then some (c.fs.Mp3Command c.bin file)
        else none) ∧
      ((∀ f ∈ c.files, c.fs.IsSwappableVideo f = true ∨ c.fs.IsSwappableAudio f = true) →
        s.queue = .returned → s.sent.length = c.files.length) ∧
      s.inCloses ≤ 1 ∧
      (s.inCloses = 1 ↔ s.queue = .returned) ∧
      (∀ a s', step c s a = some s' → s.inCloses = 1 → s'.sent = s.sent) ∧
      (1 ≤ c.workers → s.exit ≠ none → s.queue = .returned) := by
  have hinv := reachable_inv hs
  have hret : s.queue = .returned → s.sent = queueCmds c c.files := by
    intro hq
    have := hinv.sent_eq
    simpa [hq, queueRest, queueCmds] using this
  refine ⟨hinv.sent_eq, hret, rfl, ?_, ?_, ?_, ?_, ?_⟩
  · intro helig hq
    rw [hret hq]
    exact queueCmds_length_of_eligible c c.files helig
  · have := hinv.in_closes
    split at this <;> omega
  · have := hinv.in_closes
    constructor
    · intro h1
      by_contra hq
      simp only [hq, if_false] at this
      omega
    · intro hq
      simpa [hq] using this
  · intro a s' hstep hic
    rcases step_sent hstep with h | ⟨h, _⟩
    · exact h
    · omega
  · intro hW hx
    obtain ⟨_, _, _, _, hoc, _⟩ := exit_facts hinv hx
    exact (returned_facts hinv hW (by omega)).1

theorem queue_sends_classified_files_in_order_witness :
    exec sampleConfig (init sampleConfig) sampleSchedule = some sampleFinal ∧
      sampleFinal.sent
        = [sampleCollab.Mp4Command "ffmpeg" "a.mkv", sampleCollab.Mp3Command "ffmpeg" "b.m4a"] ∧
      sampleFinal.sent = queueCmds sampleConfig sampleConfig.files ∧
      sampleFinal.inCloses ≤ 1 := by
  have h := queue_sends_classified_files_in_order sampleConfig sampleSchedule sampleFinal
    (by decide)
  exact ⟨by decide, rfl, h.2.1 rfl, h.2.2.2.2.1⟩

end MediaSwapper
